import Mathlib

/-!
Verification of the feedforward neural-network training core (`neural32.go`,
`util32.go`, portable vector primitives).  The 32-bit floating scalars of the
source are modelled by exact rationals: every claim settled here is about the
data-flow structure of the algorithm (which entries are read, written, and with
which formula), not about rounding.  The library exponential `math.Exp` is an
external collaborator and is passed in as a function parameter `qexp`; the
random weight initializer of the source is likewise passed in as a pure
function `winit`, matching the `WeightInitializer32` signature `(in, out)`.
-/

namespace Neural

/-- `tab f k n` models a Go `for` loop producing `[f k, f (k+1), ..., f (k+n-1)]`. -/
def tab {α : Type} (f : ℕ → α) : ℕ → ℕ → List α
  | _, 0 => []
  | k, n + 1 => f k :: tab f (k + 1) n

/-- A loop over indices `0 .. n-1`. -/
def tab0 {α : Type} (f : ℕ → α) (n : ℕ) : List α :=
  tab f 0 n

/-- `mapIdxFrom f k xs` rewrites each element of `xs` with its index (offset by
`k`); it models an in-place Go loop that writes every slot of a slice. -/
def mapIdxFrom {α : Type} (f : ℕ → α → α) : ℕ → List α → List α
  | _, [] => []
  | k, x :: xs => f k x :: mapIdxFrom f (k + 1) xs

/-- Go `copy(dst, src)`: overwrites the leading `min |dst| |src|` slots of
`dst` with those of `src`, keeping the rest of `dst`. -/
def copyList {α : Type} : List α → List α → List α
  | dst, [] => dst
  | [], _ => []
  | _ :: dst, s :: src => s :: copyList dst src

/-- Portable `dot32` from the vector primitives: iterate the first vector,
multiplying with the matching entry of the second, and sum. -/
def dot32 (X Y : List ℚ) : ℚ :=
  (X.zip Y).foldl (fun s p => s + p.1 * p.2) 0

/-- Portable `scal32`: `X[i] = alpha * x`, modelled functionally. -/
def scal32 (alpha : ℚ) (X : List ℚ) : List ℚ :=
  X.map fun x => alpha * x

/-- Portable `axpy32`: `Y[i] = alpha*X[i] + y`, modelled functionally. -/
def axpy32 (alpha : ℚ) (X Y : List ℚ) : List ℚ :=
  (Y.zip X).map fun p => alpha * p.2 + p.1

/-- `matrix32 I J`: an `I`-by-`J` matrix of zeros (Go zero values). -/
def matrix32 (I J : ℕ) : List (List ℚ) :=
  tab0 (fun _ => tab0 (fun _ => (0 : ℚ)) J) I

/-- `vector32 I fill`: a vector of `I` copies of `fill`. -/
def vector32 (I : ℕ) (fill : ℚ) : List ℚ :=
  tab0 (fun _ => fill) I

/-- `sigmoid32` with the library exponential passed in as `qexp`. -/
def sigmoid32 (qexp : ℚ → ℚ) (x : ℚ) : ℚ :=
  1 / (1 + qexp (-x))

/-- `dsigmoid32`: derivative of the logistic in terms of its own output. -/
def dsigmoid32 (y : ℚ) : ℚ :=
  y * (1 - y)

/-- `identity` from `util32.go`. -/
def identity (x : ℚ) : ℚ :=
  x

/-- `one` from `util32.go`, the constant derivative for regression mode. -/
def one (_x : ℚ) : ℚ :=
  1

/-- `FunctionPair32`: activation `F`, training transform `T`, derivative `DF`. -/
structure FunctionPair32 where
  F : ℚ → ℚ
  T : ℚ → ℚ
  DF : ℚ → ℚ

/-- Fallback pair used as a `getD` default (never reached on shapes the Go
code indexes). -/
def idPair : FunctionPair32 :=
  ⟨identity, identity, identity⟩

/-- `Neural32`: layer widths (bias included on non-output layers), weight
tensors, momentum tensors, per-layer function pairs. -/
structure Neural32 where
  Layers : List ℕ
  Weights : List (List (List ℚ))
  Changes : List (List (List ℚ))
  Functions : List FunctionPair32

/-- `Context32`: the Go struct embeds the network; modelled as a field. -/
structure Context32 where
  net : Neural32
  Activations : List (List ℚ)

/-- The `layers[l]++` loop of `Init`: increment every width but the last. -/
def bump : List ℕ → List ℕ
  | [] => []
  | [x] => [x]
  | x :: y :: xs => (x + 1) :: bump (y :: xs)

/-- The network built by `Init` once the layer-count guard has passed: weights
filled by the initializer, momentum tensors zeroed with shape
`[layers[l]][layers[l+1]]`, sigmoid/identity/dsigmoid function pairs. -/
def mkNet (qexp : ℚ → ℚ) (winit : ℕ → ℕ → ℚ) (layers0 : List ℕ) : Neural32 :=
  let depth := layers0.length - 1
  let layers := bump layers0
  let wid := fun l => layers.getD l 0
  { Layers := layers
    Weights := tab0 (fun l =>
      tab0 (fun _j => tab0 (fun _i => winit (wid l) (wid (l + 1))) (wid l))
        (wid (l + 1))) depth
    Changes := tab0 (fun l => matrix32 (wid l) (wid (l + 1))) depth
    Functions := tab0 (fun _ => FunctionPair32.mk (sigmoid32 qexp) identity dsigmoid32) depth }

/-- `Init`: `none` models the fatal configuration failure raised when fewer
than two layer widths are supplied. -/
def init (qexp : ℚ → ℚ) (winit : ℕ → ℕ → ℚ) (layers0 : List ℕ) : Option Neural32 :=
  if layers0.length - 1 < 1 then none else some (mkNet qexp winit layers0)

/-- `EnableRegression`: overwrite `F` and `DF` of the last function pair. -/
def enableRegression (n : Neural32) : Neural32 :=
  let output := n.Functions.length - 1
  let p := n.Functions.getD output idPair
  { n with Functions := n.Functions.set output { p with F := identity, DF := one } }

/-- `NewContext`: one activation vector per layer, every slot `1.0`. -/
def newContext (n : Neural32) : Context32 :=
  { net := n, Activations := n.Layers.map fun width => vector32 width 1 }

/-- `SetInput`: `copy(c.Activations[0], input)`. -/
def setInput (c : Context32) (input : List ℚ) : Context32 :=
  { c with Activations := c.Activations.set 0 (copyList (c.Activations.getD 0 []) input) }

/-- `GetOutput`: the last activation vector. -/
def getOutput (c : Context32) : List ℚ :=
  c.Activations.getD (c.Activations.length - 1) []

/-- One step of the forward pass: connection layer `i` writes destination
layer `i+1`.  On every connection layer but the last, the loop runs over
`weights[:len(weights)-1]`, leaving the final (bias) slot untouched; on the
last connection layer it runs over every row.  `useT` selects the
`InferWithT` variant, which composes the transform after the activation. -/
def inferRow (useT : Bool) (c : Context32) (i : ℕ) : List ℚ :=
  let depth := c.net.Layers.length - 1
  let acts := c.Activations.getD i []
  let w := c.net.Weights.getD i []
  let fp := c.net.Functions.getD i idPair
  let rows := if i = depth - 1 then w.length else w.length - 1
  mapIdxFrom (fun j prev =>
    if j < rows then
      (if useT then fp.T (fp.F (dot32 acts (w.getD j [])))
       else fp.F (dot32 acts (w.getD j [])))
    else prev) 0 (c.Activations.getD (i + 1) [])

def inferStep (useT : Bool) (c : Context32) (i : ℕ) : Context32 :=
  { c with Activations := c.Activations.set (i + 1) (inferRow useT c i) }

/-- Run the forward pass over connection layers `0, 1, ..., k-1` in order. -/
def inferAux (useT : Bool) (c : Context32) : ℕ → Context32
  | 0 => c
  | k + 1 => inferStep useT (inferAux useT c k) k

/-- `Infer`: forward pass without the training transform. -/
def infer (c : Context32) : Context32 :=
  inferAux false c (c.net.Layers.length - 1)

/-- `InferWithT`: forward pass applying `T` after `F`. -/
def inferWithT (c : Context32) : Context32 :=
  inferAux true c (c.net.Layers.length - 1)

/-- Output-layer deltas (`l := depth - 2` in the source):
`deltas[l][i] = DF(activation) * (targets[i] - activation)`. -/
def outputDelta (c : Context32) (targets : List ℚ) : List ℚ :=
  let depth := c.net.Layers.length
  let l := depth - 2
  tab0 (fun i =>
    let a := (c.Activations.getD (l + 1) []).getD i 0
    (c.net.Functions.getD l idPair).DF a * (targets.getD i 0 - a))
    (c.net.Layers.getD (l + 1) 0)

/-- Hidden-layer deltas at connection layer `l`, given the downstream delta
vector: `deltas[l][i] = DF(activation[l+1][i]) * Σ_j next[j] * W[l+1][j][i]`. -/
def hiddenDelta (c : Context32) (next : List ℚ) (l : ℕ) : List ℚ :=
  tab0 (fun i =>
    let e := (tab0 (fun j => j) (c.net.Layers.getD (l + 2) 0)).foldl
      (fun s j => s + next.getD j 0 * (((c.net.Weights.getD (l + 1) []).getD j []).getD i 0)) 0
    (c.net.Functions.getD l idPair).DF ((c.Activations.getD (l + 1) []).getD i 0) * e)
    (c.net.Layers.getD (l + 1) 0)

/-- The delta vector `k` connection layers above the output one, following the
downward loop of the source from `l = depth - 2` to `l = 0`. -/
def deltaDown (c : Context32) (targets : List ℚ) : ℕ → List ℚ
  | 0 => outputDelta c targets
  | k + 1 => hiddenDelta c (deltaDown c targets k) (c.net.Layers.length - 2 - (k + 1))

/-- All delta vectors, indexed by connection layer `0 .. depth-2`; every one is
computed from the activations and the entry weights, before any update. -/
def deltaList (c : Context32) (targets : List ℚ) : List (List ℚ) :=
  tab0 (fun l => deltaDown c targets (c.net.Layers.length - 2 - l))
    (c.net.Layers.length - 1)

/-- The momentum blend the source adds to the weights at `(l, i)`:
`axpy32(lRate, change, scal32(mFactor, Changes[l][i]))` where
`change = scal32(Activations[l][i], deltas[l])`. -/
def blendAt (c : Context32) (deltas : List (List ℚ)) (lR mF : ℚ) (l i : ℕ) : List ℚ :=
  axpy32 lR (scal32 ((c.Activations.getD l []).getD i 0) (deltas.getD l []))
    (scal32 mF ((c.net.Changes.getD l []).getD i []))

/-- The weight/momentum update phase of `BackPropagate` (source lines
231–243).  Each weight entry `W[l][j][i]` (for `l < depth-1`,
`j < layers[l+1]`, `i < layers[l]`) gains the blended change, and each
momentum row `Changes[l][i]` is then overwritten with the raw
`change = Activations[l][i] * deltas[l]` by the final `copy`.  The source
iterates sources `i` outermost and destinations `j` innermost; every entry is
written exactly once, so the functional row-major rebuild below yields the
same tensors. -/
def updateNet (c : Context32) (deltas : List (List ℚ)) (lR mF : ℚ) : Neural32 :=
  let layers := c.net.Layers
  let wid := fun l => layers.getD l 0
  let depth := layers.length
  { c.net with
    Weights := mapIdxFrom (fun l Wl =>
      if l < depth - 1 then
        mapIdxFrom (fun j row =>
          if j < wid (l + 1) then
            mapIdxFrom (fun i w =>
              if i < wid l then w + (blendAt c deltas lR mF l i).getD j 0 else w) 0 row
          else row) 0 Wl
      else Wl) 0 c.net.Weights
    Changes := mapIdxFrom (fun l Cl =>
      if l < depth - 1 then
        mapIdxFrom (fun i row =>
          if i < wid l then scal32 ((c.Activations.getD l []).getD i 0) (deltas.getD l [])
          else row) 0 Cl
      else Cl) 0 c.net.Changes }

/-- `BackPropagate`: compute every delta from the entry state, apply the
update phase, and return the new context together with the sum of squared
errors over the target vector, read from the (unchanged) output activations. -/
def backPropagate (c : Context32) (targets : List ℚ) (lR mF : ℚ) : Context32 × ℚ :=
  let deltas := deltaList c targets
  let c1 : Context32 := { c with net := updateNet c deltas lR mF }
  let depth := c.net.Layers.length
  let e := (tab0 (fun i => i) targets.length).foldl
    (fun s i =>
      let f := targets.getD i 0 - (c1.Activations.getD (depth - 1) []).getD i 0
      s + f * f) 0
  (c1, e)

/-- Division of the accumulated squared error by the target-element count, as
performed on float32 values by `Train`.  Both operands here are exact and
nonnegative, and the count is an integer: the quotient is a finite float
exactly when the count is nonzero, while `0/0` (the only zero-count case the
loop can produce) is the IEEE `NaN`, modelled by `none`. -/
def f32div (e : ℚ) (n : ℕ) : Option ℚ :=
  if n = 0 then none else some (e / n)

/-- The per-iteration pattern loop of `Train`: for each pattern `p`,
`SetInput(p[0])`, `InferWithT()`, accumulate `BackPropagate(p[1], ...)` into
the error sum and `len(p[1])` into the element count. -/
def runPatterns (lR mF : ℚ) : Context32 → ℚ → ℕ → List (List (List ℚ)) → Context32 × ℚ × ℕ
  | c, e, n, [] => (c, e, n)
  | c, e, n, p :: ps =>
    let c1 := inferWithT (setInput c (p.getD 0 []))
    let r := backPropagate c1 (p.getD 1 []) lR mF
    runPatterns lR mF r.1 (e + r.2) (n + (p.getD 1 []).length) ps

/-- The iteration loop of `Train`, carrying the reused context; iteration `i`
records `e / float32(n)` for its batch. -/
def trainAux (source : ℕ → List (List (List ℚ))) (lR mF : ℚ) : Context32 → ℕ → ℕ → List (Option ℚ)
  | _, _, 0 => []
  | c, i, k + 1 =>
    let r := runPatterns lR mF c 0 0 (source i)
    f32div r.2.1 r.2.2 :: trainAux source lR mF r.1 (i + 1) k

/-- `Train`: create one context and run the iteration loop from iteration 0. -/
def train (n : Neural32) (source : ℕ → List (List (List ℚ))) (iterations : ℕ)
    (lR mF : ℚ) : List (Option ℚ) :=
  trainAux source lR mF (newContext n) 0 iterations

/-- The list of squared-error values `BackPropagate` returns across one batch,
threading the context exactly as the pattern loop does. -/
def batchErrors (lR mF : ℚ) : Context32 → List (List (List ℚ)) → List ℚ
  | _, [] => []
  | c, p :: ps =>
    let c1 := inferWithT (setInput c (p.getD 0 []))
    let r := backPropagate c1 (p.getD 1 []) lR mF
    r.2 :: batchErrors lR mF r.1 ps

/-- Total number of target elements across a batch. -/
def totalTargets (ps : List (List (List ℚ))) : ℕ :=
  (ps.map fun p => (p.getD 1 []).length).sum

/-- The context state at the start of iteration `j`, having started the loop
at iteration index `i0` in state `c`. -/
def trainCtxFrom (source : ℕ → List (List (List ℚ))) (lR mF : ℚ) (c : Context32) (i0 : ℕ) : ℕ → Context32
  | 0 => c
  | j + 1 => (runPatterns lR mF (trainCtxFrom source lR mF c i0 j) 0 0 (source (i0 + j))).1

/-- The bounds checks of `BackPropagate` that involve the target vector: the
output-delta loop reads `targets[i]` for every `i < layers[l+1]` with
`l = depth - 2` (source lines 211–215), and the error loop reads
`Activations[depth-1][i]` for every `i < len(targets)` (lines 246–249).  On
any context `Train` builds — whose activation rows are sized to the stored
layer widths — the call therefore hits a Go index-out-of-range panic exactly
when the target length differs from the output width. -/
def backPropagateFails (c : Context32) (targets : List ℚ) : Bool :=
  decide (targets.length ≠ c.net.Layers.getD (c.net.Layers.length - 2 + 1) 0)

/-- The pattern loop of `Train` with the runtime panic of `BackPropagate`
made explicit: `none` models the index-out-of-range crash, which aborts the
whole `Train` call.  On batches whose targets all match the output width this
agrees with `runPatterns`. -/
def runPatternsChecked (lR mF : ℚ) :
    Context32 → ℚ → ℕ → List (List (List ℚ)) → Option (Context32 × ℚ × ℕ)
  | c, e, n, [] => some (c, e, n)
  | c, e, n, p :: ps =>
    let c1 := inferWithT (setInput c (p.getD 0 []))
    if backPropagateFails c1 (p.getD 1 []) then none
    else
      let r := backPropagate c1 (p.getD 1 []) lR mF
      runPatternsChecked lR mF r.1 (e + r.2) (n + (p.getD 1 []).length) ps

/-- The iteration loop of `Train` over the checked pattern loop: a panic in
any batch aborts the whole call and discards every recorded entry. -/
def trainCheckedAux (source : ℕ → List (List (List ℚ))) (lR mF : ℚ) :
    Context32 → ℕ → ℕ → Option (List (Option ℚ))
  | _, _, 0 => some []
  | c, i, k + 1 =>
    match runPatternsChecked lR mF c 0 0 (source i) with
    | none => none
    | some r => (trainCheckedAux source lR mF r.1 (i + 1) k).map fun rest =>
        f32div r.2.1 r.2.2 :: rest

/-- `Train` with the Go runtime panic of `BackPropagate` made explicit. -/
def trainChecked (n : Neural32) (source : ℕ → List (List (List ℚ))) (iterations : ℕ)
    (lR mF : ℚ) : Option (List (Option ℚ)) :=
  trainCheckedAux source lR mF (newContext n) 0 iterations

/-- A degenerate exponential standing in for `math.Exp` on concrete nets whose
traces never evaluate the sigmoid. -/
def q0 : ℚ → ℚ :=
  fun _ => 0

/-- A deterministic all-zero weight initializer for concrete nets. -/
def w0 : ℕ → ℕ → ℚ :=
  fun _ _ => 0

/-- Fallback network used as an `Option.getD` default. -/
def dummyNet : Neural32 :=
  ⟨[], [], [], []⟩

/-- Concrete network over widths `[2, 1]` (stored layers `[3, 1]`). -/
def net21 : Neural32 :=
  (init q0 w0 [2, 1]).getD dummyNet

/-- Concrete network over widths `[1, 1]` in regression mode. -/
def net11 : Neural32 :=
  enableRegression ((init q0 w0 [1, 1]).getD dummyNet)

/-- Concrete three-layer network over widths `[2, 2, 1]` (stored `[3, 3, 1]`). -/
def net221 : Neural32 :=
  (init q0 w0 [2, 2, 1]).getD dummyNet

/-- Witness batch source returning one pattern `([1], [0])` every iteration. -/
def srcOne : ℕ → List (List (List ℚ)) :=
  fun _ => [[[1], [0]]]

/-- Witness batch source returning the empty batch every iteration. -/
def srcNil : ℕ → List (List (List ℚ)) :=
  fun _ => []

/-- Batch source whose single pattern has an empty target vector. -/
def srcEmptyTargets : ℕ → List (List (List ℚ)) :=
  fun _ => [[[1], []]]

/-- The operations a caller may drive a context with, for the bias
invariant: `setIn v` is a `SetInput(v)` call, `doInfer` an `Infer()` call. -/
inductive NOp where
  | setIn : List ℚ → NOp
  | doInfer : NOp

/-- Apply one operation to a context. -/
def applyOp (c : Context32) : NOp → Context32
  | NOp.setIn v => setInput c v
  | NOp.doInfer => infer c

/-- Apply a sequence of operations in order. -/
def applyOps (c : Context32) (ops : List NOp) : Context32 :=
  ops.foldl applyOp c

/-- Every `SetInput` in the sequence supplies at most `w` elements (the
non-bias capacity of the input layer). -/
def opsOK (w : ℕ) : List NOp → Prop
  | [] => True
  | NOp.setIn v :: rest => v.length ≤ w ∧ opsOK w rest
  | NOp.doInfer :: rest => opsOK w rest

/-- The activation vectors match the stored layer widths. -/
def actsOK (c : Context32) : Prop :=
  c.Activations.length = c.net.Layers.length ∧
  ∀ l, (c.Activations.getD l []).length = c.net.Layers.getD l 0

/-- The bias invariant: on every layer except the output one, the last
activation slot holds `1.0`. -/
def biasOK (c : Context32) : Prop :=
  ∀ l, l + 1 < c.net.Layers.length →
    (c.Activations.getD l []).getD (c.net.Layers.getD l 0 - 1) 0 = 1

/-- The network shape facts the forward pass relies on: each weight tensor
has one row per destination neuron, and every non-output layer is nonempty
(it holds at least the bias unit). -/
def netOK (n : Neural32) : Prop :=
  (∀ i, i + 1 < n.Layers.length → (n.Weights.getD i []).length = n.Layers.getD (i + 1) 0) ∧
  (∀ l, l + 1 < n.Layers.length → 0 < n.Layers.getD l 0)

theorem tab_length {α : Type} (f : ℕ → α) : ∀ n k, (tab f k n).length = n := by
  intro n
  induction n with
  | zero => intro k; rfl
  | succ m ih => intro k; simp [tab, ih]

theorem tab0_length {α : Type} (f : ℕ → α) (n : ℕ) : (tab0 f n).length = n :=
  tab_length f n 0

theorem tab_getD {α : Type} (f : ℕ → α) :
    ∀ n k i d, i < n → (tab f k n).getD i d = f (k + i) := by
  intro n
  induction n with
  | zero => intro k i d h; omega
  | succ m ih =>
    intro k i d h
    cases i with
    | zero => simp [tab]
    | succ j =>
      have hj : j < m := by omega
      have := ih (k + 1) j d hj
      simpa [tab, Nat.add_assoc, Nat.add_comm 1 j] using this

theorem tab0_getD {α : Type} (f : ℕ → α) (n i : ℕ) (d : α) (h : i < n) :
    (tab0 f n).getD i d = f i := by
  simpa using tab_getD f n 0 i d h

theorem mem_tab {α : Type} (f : ℕ → α) :
    ∀ n k x, x ∈ tab f k n → ∃ i, i < n ∧ x = f (k + i) := by
  intro n
  induction n with
  | zero => intro k x h; simp [tab] at h
  | succ m ih =>
    intro k x h
    simp only [tab, List.mem_cons] at h
    rcases h with h | h
    · exact ⟨0, by omega, by simpa using h⟩
    · obtain ⟨i, hi, hx⟩ := ih (k + 1) x h
      exact ⟨i + 1, by omega, by simpa [Nat.add_assoc, Nat.add_comm 1 i] using hx⟩

theorem map_tab {α β : Type} (g : α → β) (f : ℕ → α) :
    ∀ n k, (tab f k n).map g = tab (fun i => g (f i)) k n := by
  intro n
  induction n with
  | zero => intro k; rfl
  | succ m ih => intro k; simp [tab, ih]

theorem mapIdxFrom_length {α : Type} (f : ℕ → α → α) :
    ∀ xs k, (mapIdxFrom f k xs).length = xs.length := by
  intro xs
  induction xs with
  | nil => intro k; rfl
  | cons x t ih => intro k; simp [mapIdxFrom, ih]

theorem mapIdxFrom_getD_lt {α : Type} (f : ℕ → α → α) :
    ∀ xs k i d, i < xs.length →
      (mapIdxFrom f k xs).getD i d = f (k + i) (xs.getD i d) := by
  intro xs
  induction xs with
  | nil => intro k i d h; simp at h
  | cons x t ih =>
    intro k i d h
    cases i with
    | zero => simp [mapIdxFrom]
    | succ j =>
      have hj : j < t.length := by simpa using Nat.lt_of_succ_lt_succ h
      have := ih (k + 1) j d hj
      simpa [mapIdxFrom, Nat.add_assoc, Nat.add_comm 1 j] using this

theorem mapIdxFrom_getD_ge {α : Type} (f : ℕ → α → α) (xs : List α) (k i : ℕ) (d : α)
    (h : xs.length ≤ i) : (mapIdxFrom f k xs).getD i d = d :=
  List.getD_eq_default _ _ (by simpa [mapIdxFrom_length] using h)

theorem copyList_length {α : Type} : ∀ dst src : List α, (copyList dst src).length = dst.length := by
  intro dst
  induction dst with
  | nil => intro src; cases src <;> rfl
  | cons x t ih =>
    intro src
    cases src with
    | nil => rfl
    | cons s ss => simp [copyList, ih]

theorem copyList_getD_lt {α : Type} :
    ∀ (dst src : List α) (i : ℕ) (d : α), i < dst.length → i < src.length →
      (copyList dst src).getD i d = src.getD i d := by
  intro dst
  induction dst with
  | nil => intro src i d h _; simp at h
  | cons x t ih =>
    intro src i d h hs
    cases src with
    | nil => simp at hs
    | cons s ss =>
      cases i with
      | zero => simp [copyList]
      | succ j =>
        have := ih ss j d (by simpa using Nat.lt_of_succ_lt_succ h)
          (by simpa using Nat.lt_of_succ_lt_succ hs)
        simpa [copyList] using this

theorem copyList_getD_ge {α : Type} :
    ∀ (dst src : List α) (i : ℕ) (d : α), src.length ≤ i →
      (copyList dst src).getD i d = dst.getD i d := by
  intro dst
  induction dst with
  | nil => intro src i d _; cases src <;> rfl
  | cons x t ih =>
    intro src i d h
    cases src with
    | nil => rfl
    | cons s ss =>
      cases i with
      | zero => simp at h
      | succ j =>
        have := ih ss j d (by simpa using Nat.le_of_succ_le_succ h)
        simpa [copyList] using this

theorem copyList_eq_take {α : Type} :
    ∀ (dst src : List α), dst.length ≤ src.length →
      copyList dst src = src.take dst.length := by
  intro dst
  induction dst with
  | nil => intro src _; cases src <;> rfl
  | cons x t ih =>
    intro src h
    cases src with
    | nil => simp at h
    | cons s ss =>
      simp only [copyList, List.length_cons, List.take_succ_cons]
      exact congrArg _ (ih ss (by simpa using Nat.le_of_succ_le_succ h))

theorem getD_set_self {α : Type} (xs : List α) (i : ℕ) (v d : α) (h : i < xs.length) :
    (xs.set i v).getD i d = v := by
  simp [List.getD, List.getElem?_set_self, h]

theorem getD_set_ne {α : Type} (xs : List α) (i j : ℕ) (v d : α) (h : i ≠ j) :
    (xs.set i v).getD j d = xs.getD j d := by
  simp [List.getD, List.getElem?_set_ne h]

theorem getD_map_lt {α β : Type} (f : α → β) (xs : List α) (i : ℕ) (d : β) (d' : α)
    (h : i < xs.length) : (xs.map f).getD i d = f (xs.getD i d') := by
  have h1 : (xs.map f).getD i d = (xs.map f).getD i (f d') := by
    have hl : i < (xs.map f).length := by simpa using h
    rw [List.getD_eq_getElem _ _ hl, List.getD_eq_getElem _ _ hl]
  rw [h1, List.getD_map]

theorem foldl_add_sum (g : ℕ → ℚ) : ∀ (xs : List ℕ) (s : ℚ),
    xs.foldl (fun a x => a + g x) s = s + (xs.map g).sum := by
  intro xs
  induction xs with
  | nil => intro s; simp
  | cons x t ih => intro s; simp [ih, add_assoc]

theorem bump_length : ∀ ls : List ℕ, (bump ls).length = ls.length := by
  intro ls
  induction ls with
  | nil => rfl
  | cons x xs ih =>
    cases xs with
    | nil => rfl
    | cons y ys => simpa [bump] using ih

theorem bump_getD : ∀ (ls : List ℕ) (l : ℕ),
    (bump ls).getD l 0 = if l + 1 < ls.length then ls.getD l 0 + 1 else ls.getD l 0 := by
  intro ls
  induction ls with
  | nil => intro l; simp [bump]
  | cons x xs ih =>
    intro l
    cases xs with
    | nil =>
      cases l with
      | zero => simp [bump]
      | succ j => simp [bump, List.getD]
    | cons y ys =>
      cases l with
      | zero => simp [bump]
      | succ j =>
        have := ih j
        simp only [bump, List.getD_cons_succ, List.length_cons] at this ⊢
        rw [this]
        by_cases hj : j + 1 < ys.length + 1 <;> simp [hj]

theorem getD_zero_headD (ls : List ℕ) (h : ls ≠ []) : ls.getD 0 0 = ls.headD 0 := by
  cases ls with
  | nil => exact absurd rfl h
  | cons x xs => rfl

theorem init_eq_mkNet (qexp : ℚ → ℚ) (winit : ℕ → ℕ → ℚ) (ls : List ℕ) (n : Neural32)
    (hn : init qexp winit ls = some n) (h2 : 2 ≤ ls.length) : n = mkNet qexp winit ls := by
  have hcond : ¬ (ls.length - 1 < 1) := by omega
  rw [init, if_neg hcond] at hn
  exact (Option.some.inj hn).symm

theorem init_length_ge (qexp : ℚ → ℚ) (winit : ℕ → ℕ → ℚ) (ls : List ℕ) (n : Neural32)
    (hn : init qexp winit ls = some n) : 2 ≤ ls.length := by
  by_contra h
  have hcond : ls.length - 1 < 1 := by omega
  rw [init, if_pos hcond] at hn
  exact Option.noConfusion hn

/-- C4: `Init` fails fatally exactly when fewer than two layer widths are
supplied; with at least two positive widths, construction completes and
allocates `depth = len - 1` weight tensors, momentum tensors, and
activation-function pairs. -/
theorem init_guard_and_counts (qexp : ℚ → ℚ) (winit : ℕ → ℕ → ℚ) (ls : List ℕ) :
    (init qexp winit ls = none ↔ ls.length < 2) ∧
    (2 ≤ ls.length → (∀ w ∈ ls, 0 < w) →
      ∃ n, init qexp winit ls = some n ∧
        n.Weights.length = ls.length - 1 ∧
        n.Changes.length = ls.length - 1 ∧
        n.Functions.length = ls.length - 1) := by
  constructor
  · rw [init]
    by_cases h : ls.length - 1 < 1
    · simp [h]; omega
    · simp [h]; omega
  · intro h2 _
    have hcond : ¬ (ls.length - 1 < 1) := by omega
    refine ⟨mkNet qexp winit ls, by rw [init, if_neg hcond], ?_, ?_, ?_⟩
    · simp [mkNet, tab0_length]
    · simp [mkNet, tab0_length]
    · simp [mkNet, tab0_length]

/-- Witness for C4: widths `[1]` fail, widths `[2, 1]` build one tensor of
each kind. -/
theorem init_guard_and_counts_witness :
    init q0 w0 [1] = none ∧
    (∃ n, init q0 w0 [2, 1] = some n ∧
      n.Weights.length = 1 ∧ n.Changes.length = 1 ∧ n.Functions.length = 1) :=
  ⟨(init_guard_and_counts q0 w0 [1]).1.mpr (by decide),
   (init_guard_and_counts q0 w0 [2, 1]).2 (by decide) (by decide)⟩

/-- C2 fails on the code: for widths `[2, 1]` the only weight tensor has one
row of three entries, while the momentum tensor has three rows of one entry —
the transposed shape, not the same shape. -/
theorem changes_shape_cex :
    (net21.Weights.getD 0 []).length = 1 ∧
    (net21.Changes.getD 0 []).length = 3 ∧
    (net21.Weights.getD 0 []).length ≠ (net21.Changes.getD 0 []).length := by
  refine ⟨by decide, by decide, by decide⟩

/-- C2 (amended): after `Init`, connection layer `l` has weight tensor of
shape `[layers[l+1]][layers[l]]` but momentum tensor of the transposed shape
`[layers[l]][layers[l+1]]` (`layers` being the stored, bias-inclusive
widths). -/
theorem changes_shape_transposed (qexp : ℚ → ℚ) (winit : ℕ → ℕ → ℚ) (ls : List ℕ)
    (n : Neural32) (hn : init qexp winit ls = some n) (l : ℕ) (hl : l + 1 < ls.length) :
    (n.Weights.getD l []).length = n.Layers.getD (l + 1) 0 ∧
    (∀ row ∈ n.Weights.getD l [], row.length = n.Layers.getD l 0) ∧
    (n.Changes.getD l []).length = n.Layers.getD l 0 ∧
    (∀ row ∈ n.Changes.getD l [], row.length = n.Layers.getD (l + 1) 0) := by
  have h2 : 2 ≤ ls.length := by omega
  have hd : l < ls.length - 1 := by omega
  obtain rfl := init_eq_mkNet qexp winit ls n hn h2
  simp only [mkNet]
  rw [tab0_getD _ _ _ _ hd, tab0_getD _ _ _ _ hd]
  refine ⟨tab0_length _ _, ?_, ?_, ?_⟩
  · intro row hrow
    obtain ⟨i, _, rfl⟩ := mem_tab _ _ _ _ hrow
    exact tab0_length _ _
  · exact tab0_length _ _
  · intro row hrow
    obtain ⟨i, _, rfl⟩ := mem_tab _ _ _ _ hrow
    exact tab0_length _ _

/-- Witness for C2 (amended) on widths `[2, 1]`: weight tensor `1 × 3`,
momentum tensor `3 × 1`. -/
theorem changes_shape_transposed_witness :
    init q0 w0 [2, 1] = some net21 ∧ (0 : ℕ) + 1 < ([2, 1] : List ℕ).length ∧
    ((net21.Weights.getD 0 []).length = net21.Layers.getD 1 0 ∧
      (∀ row ∈ net21.Weights.getD 0 [], row.length = net21.Layers.getD 0 0) ∧
      (net21.Changes.getD 0 []).length = net21.Layers.getD 0 0 ∧
      (∀ row ∈ net21.Changes.getD 0 [], row.length = net21.Layers.getD 1 0)) :=
  ⟨rfl, by decide, changes_shape_transposed q0 w0 [2, 1] net21 rfl 0 (by decide)⟩

/-- C3 fails on the code: `SetInput` with a four-element input on a network
whose input layer holds two real slots plus the bias returns normally with
the input silently truncated (and the bias slot overwritten), rather than
failing fatally. -/
theorem setInput_overlong_cex :
    net21.Layers.getD 0 0 - 1 < ([5, 6, 7, 8] : List ℚ).length ∧
    (setInput (newContext net21) [5, 6, 7, 8]).Activations.getD 0 [] = [5, 6, 7] := by
  refine ⟨by decide, by decide⟩

/-- C3 (amended): `SetInput` never fails; Go `copy` semantics write
`min(len(input), len(activations[0]))` slots, so an over-long input is
silently truncated to the full (bias-inclusive) width of the input layer, and the
network is untouched. -/
theorem setInput_truncates (c : Context32) (input : List ℚ)
    (h : (c.Activations.getD 0 []).length ≤ input.length) :
    (setInput c input).Activations.getD 0 []
      = input.take (c.Activations.getD 0 []).length ∧
    (setInput c input).net = c.net := by
  refine ⟨?_, rfl⟩
  cases hA : c.Activations with
  | nil => simp [setInput, hA]
  | cons a t =>
    rw [hA] at h
    simp only [setInput, hA, List.getD_cons_zero, List.set]
    exact copyList_eq_take a input (by simpa using h)

/-- Witness for C3 (amended): the truncated write observed on `net21`. -/
theorem setInput_truncates_witness :
    (((newContext net21).Activations.getD 0 []).length ≤ ([5, 6, 7, 8] : List ℚ).length) ∧
    ((setInput (newContext net21) [5, 6, 7, 8]).Activations.getD 0 []
      = ([5, 6, 7, 8] : List ℚ).take ((newContext net21).Activations.getD 0 []).length ∧
     (setInput (newContext net21) [5, 6, 7, 8]).net = (newContext net21).net) :=
  ⟨by decide, setInput_truncates (newContext net21) [5, 6, 7, 8] (by decide)⟩

/-- C9: `EnableRegression` rewrites only the last function pair, setting its
activation to the identity and its derivative to the constant one while
keeping its transform; every other pair and every other field of the network
is unchanged, and the operation is idempotent. -/
theorem enableRegression_spec (n : Neural32) (h : 0 < n.Functions.length) :
    ((enableRegression n).Functions.getD (n.Functions.length - 1) idPair).F = identity ∧
    ((enableRegression n).Functions.getD (n.Functions.length - 1) idPair).DF = one ∧
    ((enableRegression n).Functions.getD (n.Functions.length - 1) idPair).T
      = (n.Functions.getD (n.Functions.length - 1) idPair).T ∧
    (∀ k, k ≠ n.Functions.length - 1 →
      (enableRegression n).Functions.getD k idPair = n.Functions.getD k idPair) ∧
    (enableRegression n).Layers = n.Layers ∧
    (enableRegression n).Weights = n.Weights ∧
    (enableRegression n).Changes = n.Changes ∧
    enableRegression (enableRegression n) = enableRegression n := by
  have hlen : n.Functions.length - 1 < n.Functions.length := by omega
  have hget : (enableRegression n).Functions.getD (n.Functions.length - 1) idPair
      = { n.Functions.getD (n.Functions.length - 1) idPair with F := identity, DF := one } := by
    simp only [enableRegression]
    exact getD_set_self _ _ _ _ hlen
  refine ⟨by rw [hget], by rw [hget], by rw [hget], ?_, rfl, rfl, rfl, ?_⟩
  · intro k hk
    simp only [enableRegression]
    exact getD_set_ne _ _ _ _ _ (fun he => hk he.symm)
  · simp only [enableRegression, List.length_set]
    rw [getD_set_self _ _ _ _ hlen]
    congr 1
    exact List.set_set ..

/-- C6: `BackPropagate` returns the plain sum of squared errors over the
output layer — no division by the output width — and the output activations
it reads after the weight update are the entry ones, which the update phase
never touches. -/
theorem backprop_error_sum (c : Context32) (t : List ℚ) (lR mF : ℚ)
    (h : t.length = c.net.Layers.getD (c.net.Layers.length - 1) 0) :
    (backPropagate c t lR mF).1.Activations = c.Activations ∧
    (backPropagate c t lR mF).2 =
      (tab0 (fun i =>
        (t.getD i 0 - (c.Activations.getD (c.net.Layers.length - 1) []).getD i 0) *
        (t.getD i 0 - (c.Activations.getD (c.net.Layers.length - 1) []).getD i 0))
        (c.net.Layers.getD (c.net.Layers.length - 1) 0)).sum := by
  constructor
  · rfl
  · simp only [backPropagate]
    rw [foldl_add_sum]
    rw [tab0, map_tab, ← tab0, ← h]
    simp

/-- Witness for C6: on `net21` with the single target `[0]` the returned
value is the squared error of the lone output neuron. -/
theorem backprop_error_sum_witness :
    ([(0 : ℚ)] : List ℚ).length
        = (newContext net21).net.Layers.getD ((newContext net21).net.Layers.length - 1) 0 ∧
    ((backPropagate (newContext net21) [0] 1 0).1.Activations = (newContext net21).Activations ∧
     (backPropagate (newContext net21) [0] 1 0).2 =
       (tab0 (fun i =>
         (([(0 : ℚ)] : List ℚ).getD i 0 -
           ((newContext net21).Activations.getD ((newContext net21).net.Layers.length - 1) []).getD i 0) *
         (([(0 : ℚ)] : List ℚ).getD i 0 -
           ((newContext net21).Activations.getD ((newContext net21).net.Layers.length - 1) []).getD i 0))
         ((newContext net21).net.Layers.getD ((newContext net21).net.Layers.length - 1) 0)).sum) :=
  ⟨by decide, backprop_error_sum (newContext net21) [0] 1 0 (by decide)⟩

/-- C1 fails on the code: on the regression network over widths `[1, 1]` with
learning rate 2 and momentum 0, the blended change added to the weights is
`-2`, but the final `copy` stores the raw, unblended change `-1` in the
momentum tensor. -/
theorem backprop_momentum_store_cex :
    (((backPropagate (newContext net11) [0] 2 0).1.net.Changes.getD 0 []).getD 0 []).getD 0 0
      = -1 ∧
    (blendAt (newContext net11) (deltaList (newContext net11) [0]) 2 0 0 0).getD 0 0 = -2 ∧
    ¬ ((((backPropagate (newContext net11) [0] 2 0).1.net.Changes.getD 0 []).getD 0 []).getD 0 0
        = (blendAt (newContext net11) (deltaList (newContext net11) [0]) 2 0 0 0).getD 0 0) := by
  norm_num [backPropagate, updateNet, deltaList, deltaDown, outputDelta, blendAt,
    newContext, net11, init, mkNet, enableRegression, bump, vector32, matrix32, tab0, tab,
    mapIdxFrom, scal32, axpy32, dot32, q0, w0, dummyNet, idPair, identity, one,
    sigmoid32, dsigmoid32, List.getD_cons_zero, List.getD_cons_succ]

/-- C1 (amended): after `BackPropagate`, the momentum entry `Changes[l][i]`
holds the raw change `Activations[l][i] * deltas[l]` — not the blended value;
the blended value `mFactor * previous + lRate * change` is what each weight
entry `W[l][j][i]` gains. -/
theorem backprop_momentum_store_amended (c : Context32) (t : List ℚ) (lR mF : ℚ)
    (l i j : ℕ)
    (hl : l + 1 < c.net.Layers.length)
    (hlC : l < c.net.Changes.length)
    (hiC : i < (c.net.Changes.getD l []).length)
    (hi : i < c.net.Layers.getD l 0)
    (hlW : l < c.net.Weights.length)
    (hjW : j < (c.net.Weights.getD l []).length)
    (hj : j < c.net.Layers.getD (l + 1) 0)
    (hiR : i < ((c.net.Weights.getD l []).getD j []).length) :
    (((backPropagate c t lR mF).1.net.Changes.getD l []).getD i [])
      = scal32 ((c.Activations.getD l []).getD i 0) ((deltaList c t).getD l []) ∧
    ((((backPropagate c t lR mF).1.net.Weights.getD l []).getD j []).getD i 0)
      = (((c.net.Weights.getD l []).getD j []).getD i 0)
        + (blendAt c (deltaList c t) lR mF l i).getD j 0 := by
  have hd : l < c.net.Layers.length - 1 := by omega
  constructor
  · show ((updateNet c (deltaList c t) lR mF).Changes.getD l []).getD i [] = _
    simp only [updateNet]
    rw [mapIdxFrom_getD_lt _ _ _ _ _ hlC]
    simp only [Nat.zero_add, if_pos hd]
    rw [mapIdxFrom_getD_lt _ _ _ _ _ hiC]
    simp only [Nat.zero_add, if_pos hi]
  · show (((updateNet c (deltaList c t) lR mF).Weights.getD l []).getD j []).getD i 0 = _
    simp only [updateNet]
    rw [mapIdxFrom_getD_lt _ _ _ _ _ hlW]
    simp only [Nat.zero_add, if_pos hd]
    rw [mapIdxFrom_getD_lt _ _ _ _ _ hjW]
    simp only [Nat.zero_add, if_pos hj]
    rw [mapIdxFrom_getD_lt _ _ _ _ _ hiR]
    simp only [Nat.zero_add, if_pos hi]

/-- Witness for C1 (amended) on the `[1, 1]` regression network: the stored
row is the raw change and the weight entry gains the blended value. -/
theorem backprop_momentum_store_amended_witness :
    ((0 : ℕ) + 1 < (newContext net11).net.Layers.length ∧
     0 < (newContext net11).net.Changes.length ∧
     0 < ((newContext net11).net.Changes.getD 0 []).length ∧
     0 < (newContext net11).net.Layers.getD 0 0 ∧
     0 < (newContext net11).net.Weights.length ∧
     0 < ((newContext net11).net.Weights.getD 0 []).length ∧
     0 < (newContext net11).net.Layers.getD 1 0 ∧
     0 < (((newContext net11).net.Weights.getD 0 []).getD 0 []).length) ∧
    ((((backPropagate (newContext net11) [0] 2 0).1.net.Changes.getD 0 []).getD 0 [])
       = scal32 (((newContext net11).Activations.getD 0 []).getD 0 0)
           ((deltaList (newContext net11) [0]).getD 0 []) ∧
     ((((backPropagate (newContext net11) [0] 2 0).1.net.Weights.getD 0 []).getD 0 []).getD 0 0)
       = ((((newContext net11).net.Weights.getD 0 []).getD 0 []).getD 0 0)
         + (blendAt (newContext net11) (deltaList (newContext net11) [0]) 2 0 0 0).getD 0 0) :=
  ⟨⟨by decide, by decide, by decide, by decide, by decide, by decide, by decide, by decide⟩,
   backprop_momentum_store_amended (newContext net11) [0] 2 0 0 0 0
     (by decide) (by decide) (by decide) (by decide)
     (by decide) (by decide) (by decide) (by decide)⟩

/-- C7: every hidden-layer delta is built from the downstream delta vector
and the weights of the entry context — the whole delta pass reads `c` as it
was at entry — and the update phase is then applied to those very deltas. -/
theorem hidden_delta_entry_weights (c : Context32) (t : List ℚ) (lR mF : ℚ) (l i : ℕ)
    (hl : l + 2 < c.net.Layers.length)
    (hi : i < c.net.Layers.getD (l + 1) 0) :
    (deltaList c t).getD l [] = hiddenDelta c ((deltaList c t).getD (l + 1) []) l ∧
    ((deltaList c t).getD l []).getD i 0 =
      (c.net.Functions.getD l idPair).DF ((c.Activations.getD (l + 1) []).getD i 0) *
        ((tab0 (fun j => j) (c.net.Layers.getD (l + 2) 0)).foldl
          (fun s j => s + ((deltaList c t).getD (l + 1) []).getD j 0 *
            (((c.net.Weights.getD (l + 1) []).getD j []).getD i 0)) 0) ∧
    (backPropagate c t lR mF).1.net = updateNet c (deltaList c t) lR mF := by
  have e1 : (deltaList c t).getD l []
      = deltaDown c t (c.net.Layers.length - 2 - l) :=
    tab0_getD _ _ _ _ (by omega)
  have e2 : (deltaList c t).getD (l + 1) []
      = deltaDown c t (c.net.Layers.length - 2 - (l + 1)) :=
    tab0_getD _ _ _ _ (by omega)
  have e3 : c.net.Layers.length - 2 - l = (c.net.Layers.length - 2 - (l + 1)) + 1 := by omega
  have hmain : (deltaList c t).getD l [] = hiddenDelta c ((deltaList c t).getD (l + 1) []) l := by
    rw [e1, e3]
    show hiddenDelta c (deltaDown c t (c.net.Layers.length - 2 - (l + 1)))
      (c.net.Layers.length - 2 - ((c.net.Layers.length - 2 - (l + 1)) + 1)) = _
    rw [← e2, show c.net.Layers.length - 2 - ((c.net.Layers.length - 2 - (l + 1)) + 1) = l
      from by omega]
  refine ⟨hmain, ?_, rfl⟩
  rw [hmain, hiddenDelta]
  exact tab0_getD _ _ _ _ hi

/-- Witness for C7 on the three-layer `net221`, hidden connection layer 0. -/
theorem hidden_delta_entry_weights_witness :
    ((0 : ℕ) + 2 < (newContext net221).net.Layers.length ∧
     0 < (newContext net221).net.Layers.getD 1 0) ∧
    ((deltaList (newContext net221) [0]).getD 0 []
       = hiddenDelta (newContext net221) ((deltaList (newContext net221) [0]).getD 1 []) 0 ∧
     ((deltaList (newContext net221) [0]).getD 0 []).getD 0 0 =
       ((newContext net221).net.Functions.getD 0 idPair).DF
           (((newContext net221).Activations.getD 1 []).getD 0 0) *
         ((tab0 (fun j => j) ((newContext net221).net.Layers.getD 2 0)).foldl
           (fun s j => s + ((deltaList (newContext net221) [0]).getD 1 []).getD j 0 *
             ((((newContext net221).net.Weights.getD 1 []).getD j []).getD 0 0)) 0) ∧
     (backPropagate (newContext net221) [0] 1 0).1.net
       = updateNet (newContext net221) (deltaList (newContext net221) [0]) 1 0) :=
  ⟨⟨by decide, by decide⟩,
   hidden_delta_entry_weights (newContext net221) [0] 1 0 0 0 (by decide) (by decide)⟩

theorem runPatterns_err (lR mF : ℚ) : ∀ (ps : List (List (List ℚ))) (c : Context32) (e : ℚ) (n : ℕ),
    (runPatterns lR mF c e n ps).2.1 = e + (batchErrors lR mF c ps).sum := by
  intro ps
  induction ps with
  | nil => intro c e n; simp [runPatterns, batchErrors]
  | cons p t ih => intro c e n; simp [runPatterns, batchErrors, ih, add_assoc]

theorem runPatterns_cnt (lR mF : ℚ) : ∀ (ps : List (List (List ℚ))) (c : Context32) (e : ℚ) (n : ℕ),
    (runPatterns lR mF c e n ps).2.2 = n + totalTargets ps := by
  intro ps
  induction ps with
  | nil => intro c e n; simp [runPatterns, totalTargets]
  | cons p t ih => intro c e n; simp [runPatterns, totalTargets, ih]; omega

theorem trainAux_length (source : ℕ → List (List (List ℚ))) (lR mF : ℚ) :
    ∀ (k : ℕ) (c : Context32) (i0 : ℕ), (trainAux source lR mF c i0 k).length = k := by
  intro k
  induction k with
  | zero => intro c i0; rfl
  | succ m ih => intro c i0; simp [trainAux, ih]

theorem trainCtxFrom_succ (source : ℕ → List (List (List ℚ))) (lR mF : ℚ) :
    ∀ (j : ℕ) (c : Context32) (i0 : ℕ),
      trainCtxFrom source lR mF c i0 (j + 1)
        = trainCtxFrom source lR mF ((runPatterns lR mF c 0 0 (source i0)).1) (i0 + 1) j := by
  intro j
  induction j with
  | zero => intro c i0; simp [trainCtxFrom]
  | succ m ih =>
    intro c i0
    show (runPatterns lR mF (trainCtxFrom source lR mF c i0 (m + 1)) 0 0 (source (i0 + (m + 1)))).1
      = trainCtxFrom source lR mF ((runPatterns lR mF c 0 0 (source i0)).1) (i0 + 1) (m + 1)
    rw [ih c i0, show i0 + (m + 1) = i0 + 1 + m from by omega]
    rfl

theorem trainAux_getD (source : ℕ → List (List (List ℚ))) (lR mF : ℚ) :
    ∀ (k j : ℕ) (c : Context32) (i0 : ℕ) (d : Option ℚ), j < k →
      (trainAux source lR mF c i0 k).getD j d
        = f32div (runPatterns lR mF (trainCtxFrom source lR mF c i0 j) 0 0 (source (i0 + j))).2.1
            (runPatterns lR mF (trainCtxFrom source lR mF c i0 j) 0 0 (source (i0 + j))).2.2 := by
  intro k
  induction k with
  | zero => intro j c i0 d h; omega
  | succ m ih =>
    intro j c i0 d h
    cases j with
    | zero => simp [trainAux, trainCtxFrom]
    | succ jj =>
      have step : (trainAux source lR mF c i0 (m + 1)).getD (jj + 1) d
          = (trainAux source lR mF ((runPatterns lR mF c 0 0 (source i0)).1) (i0 + 1) m).getD jj d := rfl
      rw [step, ih jj ((runPatterns lR mF c 0 0 (source i0)).1) (i0 + 1) d (by omega),
        ← trainCtxFrom_succ, show i0 + 1 + jj = i0 + (jj + 1) from by omega]

/-- C8: `Train` records exactly `iterations` entries, and each one is the
accumulated `BackPropagate` squared-error sum of the batch divided by its
total target-element count. -/
theorem train_error_aggregation (n : Neural32) (source : ℕ → List (List (List ℚ)))
    (iters : ℕ) (lR mF : ℚ) (i : ℕ) (hi : i < iters)
    (hpos : 0 < totalTargets (source i)) :
    (train n source iters lR mF).length = iters ∧
    (train n source iters lR mF).getD i none =
      some ((batchErrors lR mF (trainCtxFrom source lR mF (newContext n) 0 i) (source i)).sum
        / (totalTargets (source i) : ℚ)) := by
  constructor
  · exact trainAux_length source lR mF iters (newContext n) 0
  · show (trainAux source lR mF (newContext n) 0 iters).getD i none = _
    rw [trainAux_getD source lR mF iters i (newContext n) 0 none hi,
      runPatterns_err, runPatterns_cnt]
    have htt : (0 : ℕ) + totalTargets (source (0 + i)) ≠ 0 := by
      simpa using Nat.pos_iff_ne_zero.mp hpos
    rw [f32div, if_neg htt]
    simp

theorem mkNet_Layers_length (qexp : ℚ → ℚ) (winit : ℕ → ℕ → ℚ) (ls : List ℕ) :
    (mkNet qexp winit ls).Layers.length = ls.length := by
  show (bump ls).length = ls.length
  exact bump_length ls

theorem mkNet_netOK (qexp : ℚ → ℚ) (winit : ℕ → ℕ → ℚ) (ls : List ℕ) :
    netOK (mkNet qexp winit ls) := by
  constructor
  · intro i hi
    have hlen := mkNet_Layers_length qexp winit ls
    have hi2 : i < ls.length - 1 := by omega
    show ((mkNet qexp winit ls).Weights.getD i []).length = (bump ls).getD (i + 1) 0
    simp only [mkNet]
    rw [tab0_getD _ _ _ _ hi2]
    exact tab0_length _ _
  · intro l hl
    have hlen := mkNet_Layers_length qexp winit ls
    have hl2 : l + 1 < ls.length := by omega
    show 0 < (bump ls).getD l 0
    rw [bump_getD, if_pos hl2]
    omega

theorem newContext_net (n : Neural32) : (newContext n).net = n :=
  rfl

theorem newContext_actsOK (n : Neural32) : actsOK (newContext n) := by
  constructor
  · simp [newContext]
  · intro l
    by_cases hl : l < n.Layers.length
    · show ((n.Layers.map fun width => vector32 width 1).getD l []).length = n.Layers.getD l 0
      rw [getD_map_lt _ _ _ _ 0 hl]
      exact tab0_length _ _
    · have h1 : (n.Layers.map fun width => vector32 width 1).getD l [] = [] :=
        List.getD_eq_default _ _ (by simpa using Nat.le_of_not_lt hl)
      have h2 : n.Layers.getD l 0 = 0 :=
        List.getD_eq_default _ _ (Nat.le_of_not_lt hl)
      show ((n.Layers.map fun width => vector32 width 1).getD l []).length = n.Layers.getD l 0
      rw [h1, h2]
      rfl

theorem newContext_biasOK (n : Neural32) (hn : netOK n) : biasOK (newContext n) := by
  intro l hl
  have hl3 : l + 1 < n.Layers.length := hl
  have hl2 : l < n.Layers.length := by omega
  have hpos := hn.2 l hl3
  show ((n.Layers.map fun width => vector32 width 1).getD l []).getD (n.Layers.getD l 0 - 1) 0 = 1
  rw [getD_map_lt _ _ _ _ 0 hl2]
  exact tab0_getD _ _ _ _ (by omega)

theorem setInput_net (c : Context32) (v : List ℚ) : (setInput c v).net = c.net :=
  rfl

theorem setInput_actsOK (c : Context32) (v : List ℚ) (h : actsOK c) : actsOK (setInput c v) := by
  obtain ⟨h1, h2⟩ := h
  refine ⟨by simpa [setInput, List.length_set] using h1, ?_⟩
  intro l
  show ((c.Activations.set 0 (copyList (c.Activations.getD 0 []) v)).getD l []).length
    = c.net.Layers.getD l 0
  cases l with
  | zero =>
    cases hA : c.Activations with
    | nil => simpa [hA] using h2 0
    | cons a t =>
      have := h2 0
      rw [hA] at this
      simp only [List.getD_cons_zero] at this
      simp only [List.set, List.getD_cons_zero, copyList_length]
      exact this
  | succ m =>
    rw [getD_set_ne _ _ _ _ _ (by omega)]
    exact h2 (m + 1)

theorem setInput_biasOK (c : Context32) (v : List ℚ) (hb : biasOK c)
    (hw : v.length + 1 ≤ c.net.Layers.getD 0 0) : biasOK (setInput c v) := by
  intro l hl
  show ((c.Activations.set 0 (copyList (c.Activations.getD 0 []) v)).getD l []).getD
    (c.net.Layers.getD l 0 - 1) 0 = 1
  cases l with
  | zero =>
    cases hA : c.Activations with
    | nil => simpa [hA] using hb 0 hl
    | cons a t =>
      have := hb 0 hl
      rw [hA] at this
      simp only [List.getD_cons_zero] at this
      simp only [List.set, List.getD_cons_zero]
      rw [copyList_getD_ge a v _ _ (by omega)]
      exact this
  | succ m =>
    rw [getD_set_ne _ _ _ _ _ (by omega)]
    exact hb (m + 1) hl

theorem inferStep_net (useT : Bool) (c : Context32) (i : ℕ) : (inferStep useT c i).net = c.net :=
  rfl

theorem inferRow_length (useT : Bool) (c : Context32) (i : ℕ) :
    (inferRow useT c i).length = (c.Activations.getD (i + 1) []).length :=
  mapIdxFrom_length _ _ _

theorem inferStep_actsOK (useT : Bool) (c : Context32) (i : ℕ) (h : actsOK c) :
    actsOK (inferStep useT c i) := by
  obtain ⟨h1, h2⟩ := h
  refine ⟨by simpa [inferStep, List.length_set] using h1, ?_⟩
  intro l
  show ((c.Activations.set (i + 1) (inferRow useT c i)).getD l []).length = c.net.Layers.getD l 0
  by_cases he : l = i + 1
  · subst he
    by_cases hlen : i + 1 < c.Activations.length
    · rw [getD_set_self _ _ _ _ hlen, inferRow_length]
      exact h2 (i + 1)
    · rw [List.set_eq_of_length_le (Nat.le_of_not_lt hlen)]
      exact h2 (i + 1)
  · rw [getD_set_ne _ _ _ _ _ (fun hh => he hh.symm)]
    exact h2 l

theorem inferRow_bias (useT : Bool) (c : Context32) (i : ℕ)
    (hwlen : (c.net.Weights.getD i []).length = c.net.Layers.getD (i + 1) 0)
    (hne : i ≠ c.net.Layers.length - 1 - 1)
    (hpos : 0 < c.net.Layers.getD (i + 1) 0)
    (hactlen : (c.Activations.getD (i + 1) []).length = c.net.Layers.getD (i + 1) 0) :
    (inferRow useT c i).getD (c.net.Layers.getD (i + 1) 0 - 1) 0
      = (c.Activations.getD (i + 1) []).getD (c.net.Layers.getD (i + 1) 0 - 1) 0 := by
  simp only [inferRow]
  rw [mapIdxFrom_getD_lt _ _ _ _ _ (by omega)]
  rw [if_neg hne]
  rw [if_neg (by omega)]

theorem inferStep_biasOK (useT : Bool) (c : Context32) (i : ℕ)
    (hn : netOK c.net) (ha : actsOK c) (hb : biasOK c) :
    biasOK (inferStep useT c i) := by
  intro l hl
  show ((c.Activations.set (i + 1) (inferRow useT c i)).getD l []).getD
    (c.net.Layers.getD l 0 - 1) 0 = 1
  by_cases he : l = i + 1
  · subst he
    have hteach : i + 1 + 1 < c.net.Layers.length := hl
    have hset : i + 1 < c.Activations.length := by rw [ha.1]; omega
    rw [getD_set_self _ _ _ _ hset]
    rw [inferRow_bias useT c i (hn.1 i (by omega)) (by omega) (hn.2 (i + 1) hl) (ha.2 (i + 1))]
    exact hb (i + 1) hl
  · rw [getD_set_ne _ _ _ _ _ (fun hh => he hh.symm)]
    exact hb l hl

theorem inferAux_inv (useT : Bool) (c : Context32) (hn : netOK c.net) :
    ∀ k, actsOK c → biasOK c →
      actsOK (inferAux useT c k) ∧ biasOK (inferAux useT c k) ∧ (inferAux useT c k).net = c.net := by
  intro k
  induction k with
  | zero => intro ha hb; exact ⟨ha, hb, rfl⟩
  | succ m ih =>
    intro ha hb
    obtain ⟨ha2, hb2, hnet2⟩ := ih ha hb
    have hn2 : netOK (inferAux useT c m).net := by rw [hnet2]; exact hn
    refine ⟨inferStep_actsOK useT _ m ha2, inferStep_biasOK useT _ m hn2 ha2 hb2, ?_⟩
    show (inferStep useT (inferAux useT c m) m).net = c.net
    rw [inferStep_net]
    exact hnet2

theorem infer_inv (c : Context32) (hn : netOK c.net) (ha : actsOK c) (hb : biasOK c) :
    actsOK (infer c) ∧ biasOK (infer c) ∧ (infer c).net = c.net :=
  inferAux_inv false c hn (c.net.Layers.length - 1) ha hb

theorem applyOps_inv (n : Neural32) (hn : netOK n) (hlen2 : 2 ≤ n.Layers.length) :
    ∀ (ops : List NOp) (c : Context32), c.net = n → actsOK c → biasOK c →
      opsOK (n.Layers.getD 0 0 - 1) ops →
      actsOK (applyOps c ops) ∧ biasOK (applyOps c ops) ∧ (applyOps c ops).net = n := by
  intro ops
  induction ops with
  | nil => intro c hc ha hb _; exact ⟨ha, hb, hc⟩
  | cons op rest ih =>
    intro c hc ha hb hops
    cases op with
    | setIn v =>
      obtain ⟨hv, hrest⟩ := hops
      have hpos : 0 < n.Layers.getD 0 0 := hn.2 0 (by omega)
      exact ih (setInput c v) (by rw [setInput_net, hc]) (setInput_actsOK c v ha)
        (setInput_biasOK c v hb (by rw [hc]; omega)) hrest
    | doInfer =>
      have hn2 : netOK c.net := by rw [hc]; exact hn
      obtain ⟨ha2, hb2, hnet2⟩ := infer_inv c hn2 ha hb
      exact ih (infer c) (by rw [hnet2, hc]) ha2 hb2 hops

/-- C5: starting from a fresh context, any sequence of `SetInput` calls
(supplying at most the non-bias capacity of the input layer) and `Infer` calls
keeps the bias slot — the last activation slot of every non-output layer —
equal to `1.0` at every point. -/
theorem bias_invariant (qexp : ℚ → ℚ) (winit : ℕ → ℕ → ℚ) (ls : List ℕ) (n : Neural32)
    (hn : init qexp winit ls = some n) (ops : List NOp)
    (hops : opsOK (ls.headD 0) ops) :
    biasOK (newContext n) ∧ biasOK (applyOps (newContext n) ops) := by
  have h2 : 2 ≤ ls.length := init_length_ge qexp winit ls n hn
  obtain rfl := init_eq_mkNet qexp winit ls n hn h2
  have hnet := mkNet_netOK qexp winit ls
  have hcap : (mkNet qexp winit ls).Layers.getD 0 0 - 1 = ls.headD 0 := by
    show (bump ls).getD 0 0 - 1 = ls.headD 0
    rw [bump_getD, if_pos (by omega), getD_zero_headD ls (by
      intro hnil
      rw [hnil] at h2
      simp at h2)]
    omega
  refine ⟨newContext_biasOK _ hnet, ?_⟩
  have := applyOps_inv (mkNet qexp winit ls) hnet
    (by rw [mkNet_Layers_length]; exact h2) ops (newContext (mkNet qexp winit ls)) rfl
    (newContext_actsOK _) (newContext_biasOK _ hnet) (by rw [hcap]; exact hops)
  exact this.2.1

/-- Witness for C5: `net21` driven by a legal `SetInput` then `Infer`. -/
theorem bias_invariant_witness :
    opsOK (([2, 1] : List ℕ).headD 0) [NOp.setIn [5], NOp.doInfer] ∧
    (biasOK (newContext net21) ∧
     biasOK (applyOps (newContext net21) [NOp.setIn [5], NOp.doInfer])) :=
  ⟨⟨by decide, trivial⟩,
   bias_invariant q0 w0 [2, 1] net21 rfl [NOp.setIn [5], NOp.doInfer] ⟨by decide, trivial⟩⟩

/-- Witness for C8: one iteration, one pattern with a single target. -/
theorem train_error_aggregation_witness :
    ((0 : ℕ) < 1 ∧ 0 < totalTargets (srcOne 0)) ∧
    ((train net21 srcOne 1 1 0).length = 1 ∧
     (train net21 srcOne 1 1 0).getD 0 none =
       some ((batchErrors 1 0 (trainCtxFrom srcOne 1 0 (newContext net21) 0 0) (srcOne 0)).sum
         / (totalTargets (srcOne 0) : ℚ))) :=
  ⟨⟨by decide, by decide⟩, train_error_aggregation net21 srcOne 1 1 0 0 (by decide) (by decide)⟩

theorem inferAux_net (useT : Bool) (c : Context32) :
    ∀ k, (inferAux useT c k).net = c.net := by
  intro k
  induction k with
  | zero => rfl
  | succ m ih =>
    show (inferStep useT (inferAux useT c m) m).net = c.net
    rw [inferStep_net]
    exact ih

theorem inferWithT_net (c : Context32) : (inferWithT c).net = c.net :=
  inferAux_net true c (c.net.Layers.length - 1)

theorem backPropagate_netLayers (c : Context32) (t : List ℚ) (lR mF : ℚ) :
    (backPropagate c t lR mF).1.net.Layers = c.net.Layers :=
  rfl

theorem stepLayers (c : Context32) (p : List (List ℚ)) (lR mF : ℚ) :
    (backPropagate (inferWithT (setInput c (p.getD 0 []))) (p.getD 1 []) lR mF).1.net.Layers
      = c.net.Layers := by
  rw [backPropagate_netLayers, inferWithT_net, setInput_net]

theorem runPatterns_Layers (lR mF : ℚ) :
    ∀ (ps : List (List (List ℚ))) (c : Context32) (e : ℚ) (n : ℕ),
      (runPatterns lR mF c e n ps).1.net.Layers = c.net.Layers := by
  intro ps
  induction ps with
  | nil => intro c e n; rfl
  | cons p t ih =>
    intro c e n
    have h1 : runPatterns lR mF c e n (p :: t)
        = runPatterns lR mF
            ((backPropagate (inferWithT (setInput c (p.getD 0 []))) (p.getD 1 []) lR mF).1)
            (e + (backPropagate (inferWithT (setInput c (p.getD 0 []))) (p.getD 1 []) lR mF).2)
            (n + (p.getD 1 []).length) t := rfl
    rw [h1, ih, stepLayers]

theorem runPatternsChecked_eq (lR mF : ℚ) :
    ∀ (ps : List (List (List ℚ))) (c : Context32) (e : ℚ) (n : ℕ),
      (∀ p ∈ ps, (p.getD 1 []).length = c.net.Layers.getD (c.net.Layers.length - 2 + 1) 0) →
      runPatternsChecked lR mF c e n ps = some (runPatterns lR mF c e n ps) := by
  intro ps
  induction ps with
  | nil => intro c e n _; rfl
  | cons p t ih =>
    intro c e n h
    have hp := h p (List.mem_cons_self p t)
    have hfail : backPropagateFails (inferWithT (setInput c (p.getD 0 []))) (p.getD 1 []) = false := by
      simp only [backPropagateFails, inferWithT_net, setInput_net]
      exact decide_eq_false (not_not_intro hp)
    have h2 : runPatternsChecked lR mF c e n (p :: t)
        = if backPropagateFails (inferWithT (setInput c (p.getD 0 []))) (p.getD 1 []) then none
          else runPatternsChecked lR mF
            ((backPropagate (inferWithT (setInput c (p.getD 0 []))) (p.getD 1 []) lR mF).1)
            (e + (backPropagate (inferWithT (setInput c (p.getD 0 []))) (p.getD 1 []) lR mF).2)
            (n + (p.getD 1 []).length) t := rfl
    have h3 : runPatterns lR mF c e n (p :: t)
        = runPatterns lR mF
            ((backPropagate (inferWithT (setInput c (p.getD 0 []))) (p.getD 1 []) lR mF).1)
            (e + (backPropagate (inferWithT (setInput c (p.getD 0 []))) (p.getD 1 []) lR mF).2)
            (n + (p.getD 1 []).length) t := rfl
    rw [h2, hfail, if_neg Bool.false_ne_true, h3]
    apply ih
    intro p2 hp2
    rw [stepLayers]
    exact h p2 (List.mem_cons_of_mem p hp2)

theorem trainCheckedAux_eq (source : ℕ → List (List (List ℚ))) (lR mF : ℚ) :
    ∀ (k : ℕ) (c : Context32) (i0 : ℕ),
      (∀ j, j < k → ∀ p ∈ source (i0 + j),
        (p.getD 1 []).length = c.net.Layers.getD (c.net.Layers.length - 2 + 1) 0) →
      trainCheckedAux source lR mF c i0 k = some (trainAux source lR mF c i0 k) := by
  intro k
  induction k with
  | zero => intro c i0 _; rfl
  | succ m ih =>
    intro c i0 h
    have h0 : ∀ p ∈ source i0,
        (p.getD 1 []).length = c.net.Layers.getD (c.net.Layers.length - 2 + 1) 0 := by
      have := h 0 (by omega)
      simpa using this
    have hsafe : ∀ j, j < m → ∀ p ∈ source (i0 + 1 + j),
        (p.getD 1 []).length
          = (runPatterns lR mF c 0 0 (source i0)).1.net.Layers.getD
              ((runPatterns lR mF c 0 0 (source i0)).1.net.Layers.length - 2 + 1) 0 := by
      intro j hj p hp
      rw [runPatterns_Layers]
      refine h (j + 1) (by omega) p ?_
      rw [show i0 + (j + 1) = i0 + 1 + j from by omega]
      exact hp
    have h2 : trainCheckedAux source lR mF c i0 (m + 1)
        = match runPatternsChecked lR mF c 0 0 (source i0) with
          | none => none
          | some r => (trainCheckedAux source lR mF r.1 (i0 + 1) m).map fun rest =>
              f32div r.2.1 r.2.2 :: rest := rfl
    rw [h2, runPatternsChecked_eq lR mF (source i0) c 0 0 h0]
    show (trainCheckedAux source lR mF (runPatterns lR mF c 0 0 (source i0)).1 (i0 + 1) m).map
        (fun rest => f32div (runPatterns lR mF c 0 0 (source i0)).2.1
          (runPatterns lR mF c 0 0 (source i0)).2.2 :: rest)
      = some (trainAux source lR mF c i0 (m + 1))
    rw [ih ((runPatterns lR mF c 0 0 (source i0)).1) (i0 + 1) hsafe]
    rfl

/-- C10 fails on the code: a batch whose single pattern has an empty target
vector makes the output-delta loop of `BackPropagate` read `targets[0]` out
of range (the loop runs to the output width, here 1), so the Go runtime
panics and the whole `Train` call crashes instead of recording `NaN` and
executing the remaining iterations. -/
theorem train_empty_targets_cex :
    totalTargets (srcEmptyTargets 0) = 0 ∧
    trainChecked net21 srcEmptyTargets 1 1 0 = none := by
  refine ⟨by decide, by decide⟩

/-- C10 (amended): an iteration whose batch is literally empty records the
non-finite `0/0` value (IEEE `NaN`, modelled `none`) and does not abort the
run: when every pattern of every batch carries a target of exactly the output
width, the panic-aware `Train` completes, agrees with the unchecked model,
and returns all `iterations` entries with the empty-batch entry `NaN`.  A
batch containing a pattern whose target is shorter (for instance empty)
instead crashes the whole call. -/
theorem train_empty_batch_nan_amended (n : Neural32) (source : ℕ → List (List (List ℚ)))
    (iters i : ℕ) (lR mF : ℚ) (hi : i < iters) (hempty : source i = [])
    (hsafe : ∀ j, j < iters → ∀ p ∈ source j,
      (p.getD 1 []).length = n.Layers.getD (n.Layers.length - 2 + 1) 0) :
    trainChecked n source iters lR mF = some (train n source iters lR mF) ∧
    (train n source iters lR mF).length = iters ∧
    (train n source iters lR mF).getD i (some 0) = none := by
  refine ⟨?_, trainAux_length source lR mF iters (newContext n) 0, ?_⟩
  · show trainCheckedAux source lR mF (newContext n) 0 iters
      = some (trainAux source lR mF (newContext n) 0 iters)
    apply trainCheckedAux_eq
    intro j hj p hp
    exact hsafe j hj p (by simpa using hp)
  · show (trainAux source lR mF (newContext n) 0 iters).getD i (some 0) = _
    rw [trainAux_getD source lR mF iters i (newContext n) 0 (some 0) hi, runPatterns_cnt,
      show (0 : ℕ) + i = i from by omega, hempty]
    simp [totalTargets, f32div]

/-- Witness for C10 (amended): one empty-batch iteration on `net21` runs to
completion and records the `NaN` entry. -/
theorem train_empty_batch_nan_amended_witness :
    ((0 : ℕ) < 1 ∧ srcNil 0 = [] ∧
     (∀ j, j < 1 → ∀ p ∈ srcNil j,
       (p.getD 1 []).length = net21.Layers.getD (net21.Layers.length - 2 + 1) 0)) ∧
    (trainChecked net21 srcNil 1 1 0 = some (train net21 srcNil 1 1 0) ∧
     (train net21 srcNil 1 1 0).length = 1 ∧
     (train net21 srcNil 1 1 0).getD 0 (some 0) = none) :=
  ⟨⟨by decide, rfl, by intro j hj p hp; simp [srcNil] at hp⟩,
   train_empty_batch_nan_amended net21 srcNil 1 0 1 0 (by decide) rfl
     (by intro j hj p hp; simp [srcNil] at hp)⟩

/-- Witness for C9 on the concrete `net21`. -/
theorem enableRegression_spec_witness :
    0 < net21.Functions.length ∧
    (((enableRegression net21).Functions.getD (net21.Functions.length - 1) idPair).F = identity ∧
     ((enableRegression net21).Functions.getD (net21.Functions.length - 1) idPair).DF = one ∧
     ((enableRegression net21).Functions.getD (net21.Functions.length - 1) idPair).T
       = (net21.Functions.getD (net21.Functions.length - 1) idPair).T ∧
     (∀ k, k ≠ net21.Functions.length - 1 →
       (enableRegression net21).Functions.getD k idPair = net21.Functions.getD k idPair) ∧
     (enableRegression net21).Layers = net21.Layers ∧
     (enableRegression net21).Weights = net21.Weights ∧
     (enableRegression net21).Changes = net21.Changes ∧
     enableRegression (enableRegression net21) = enableRegression net21) :=
  ⟨by decide, enableRegression_spec net21 (by decide)⟩

end Neural
